import Mathlib

/-!
Verification of the ambench load-testing harness: a shallow embedding of the
alert-identity hashing scheme (receive.go), the chronological event merge,
the alert batcher, the lazily-grown dataset cache and the orchestrator loop
(main source files), with theorems settling the specified properties.
-/

namespace Ambench

/-- Byte sequence of a Go string, one abstract byte per character
(`append(b, string(s)...)` in receive.go appends the bytes of `s`). -/
def strBytes (s : String) : List Nat := s.data.map Char.toNat

/-- The separator byte `'\xff'` used by `hashAlert` (receive.go line 131). -/
def sep : Nat := 255

/-- Modelled from the spec: `xxhash.Sum64` is an external library, not part of
this repository; the spec (section 4.5) treats it as "a fixed 64-bit
non-cryptographic hash function" of the serialized bytes.  It is modelled as a
fixed executable function from byte lists into 64-bit values; no claim depends
on its concrete values, only on its being a function of the bytes. -/
def xxhashSum64 (b : List Nat) : Nat :=
  b.foldl (fun acc x => (acc * 1099511628211 + x) % 2 ^ 64) (14695981039346656037 % 2 ^ 64)

/-- `Alert` (part_001 lines 182-184): a label mapping.  The Go
`map[string]string` is modelled as an association list in insertion order with
unique keys; permuting the list corresponds to changing the insertion order,
which for a Go map leaves the map contents unchanged. -/
structure Alert where
  Labels : List (String × String)
deriving DecidableEq

/-- Go map read `a.Labels[ln]` (the zero value `""` when the key is absent). -/
def lookupLabel (ls : List (String × String)) (n : String) : String :=
  match ls.find? (fun p => p.1 == n) with
  | some p => p.2
  | none => ""

/-- `hashAlert` (receive.go lines 130-153): collect the label names, sort them
ascending (`sort.Strings`), serialize each pair as `name SEP value SEP`, and
hash the accumulated bytes. -/
def hashAlert (a : Alert) : Nat :=
  xxhashSum64 (((a.Labels.map Prod.fst).mergeSort).foldl
    (fun b ln => b ++ strBytes ln ++ [sep] ++ strBytes (lookupLabel a.Labels ln) ++ [sep]) [])

/-- `alertHashes` (receive.go lines 155-160): the per-alert hash of each alert,
in order. -/
def alertHashes (a : List Alert) : List Nat := a.map hashAlert

/-- `hashHashes` (receive.go lines 162-167): XOR-combine a list of hashes. -/
def hashHashes (h : List Nat) : Nat := h.foldl (fun res x => res ^^^ x) 0

/-- `hashAlerts` (receive.go lines 169-174): XOR-combine the per-alert hashes
of an alert list. -/
def hashAlerts (a : List Alert) : Nat := a.foldl (fun res x => res ^^^ hashAlert x) 0

theorem hashAlerts_eq_hashHashes (a : List Alert) :
    hashAlerts a = hashHashes (alertHashes a) := by
  simp [hashAlerts, hashHashes, alertHashes, List.foldl_map]

theorem find?_eq_of_perm {ls₁ ls₂ : List (String × String)} (h : ls₁.Perm ls₂) :
    ∀ n : String, (ls₁.map Prod.fst).Nodup →
      ls₁.find? (fun p => p.1 == n) = ls₂.find? (fun p => p.1 == n) := by
  induction h with
  | nil => intro n _; rfl
  | cons x h ih =>
      intro n hn
      simp only [List.map_cons, List.nodup_cons] at hn
      cases hx : (x.1 == n) <;> simp only [List.find?, hx]
      exact ih n hn.2
  | swap x y l =>
      intro n hn
      simp only [List.map_cons, List.nodup_cons, List.mem_cons, not_or] at hn
      cases hy : (y.1 == n) <;> cases hx : (x.1 == n) <;> simp only [List.find?, hx, hy]
      exact absurd ((beq_iff_eq.mp hy).trans (beq_iff_eq.mp hx).symm) hn.1.1
  | trans h₁ h₂ ih₁ ih₂ =>
      intro n hn
      refine (ih₁ n hn).trans (ih₂ n ?_)
      exact ((h₁.map Prod.fst).nodup_iff).mp hn

theorem lookupLabel_eq_of_perm {ls₁ ls₂ : List (String × String)} (h : ls₁.Perm ls₂)
    (hn : (ls₁.map Prod.fst).Nodup) (n : String) :
    lookupLabel ls₁ n = lookupLabel ls₂ n := by
  unfold lookupLabel
  rw [find?_eq_of_perm h n hn]

theorem mergeSort_eq_of_perm {l₁ l₂ : List String} (h : l₁.Perm l₂) :
    l₁.mergeSort = l₂.mergeSort := by
  refine List.eq_of_perm_of_sorted ?_ (List.sorted_mergeSort' _) (List.sorted_mergeSort' _)
  exact (List.mergeSort_perm l₁ _).trans (h.trans (List.mergeSort_perm l₂ _).symm)

theorem foldl_serialize_ext (ls₁ ls₂ : List (String × String))
    (hlook : ∀ n, lookupLabel ls₁ n = lookupLabel ls₂ n) :
    ∀ (names : List String) (b : List Nat),
      names.foldl
        (fun b ln => b ++ strBytes ln ++ [sep] ++ strBytes (lookupLabel ls₁ ln) ++ [sep]) b =
      names.foldl
        (fun b ln => b ++ strBytes ln ++ [sep] ++ strBytes (lookupLabel ls₂ ln) ++ [sep]) b := by
  intro names
  induction names with
  | nil => intro b; rfl
  | cons x names ih => intro b; simp only [List.foldl_cons, hlook x]; exact ih _

theorem hashAlert_eq_of_perm {a b : Alert} (h : a.Labels.Perm b.Labels)
    (hn : (a.Labels.map Prod.fst).Nodup) : hashAlert a = hashAlert b := by
  unfold hashAlert
  rw [mergeSort_eq_of_perm (h.map Prod.fst)]
  rw [foldl_serialize_ext a.Labels b.Labels (lookupLabel_eq_of_perm h hn) _ _]

theorem alertHashes_eq_of_forall₂ {l₁ l₂ : List Alert}
    (h : List.Forall₂ (fun a b => a.Labels.Perm b.Labels) l₁ l₂)
    (hn : ∀ a ∈ l₁, (a.Labels.map Prod.fst).Nodup) :
    alertHashes l₁ = alertHashes l₂ := by
  induction h with
  | nil => rfl
  | cons hab h ih =>
      simp only [alertHashes, List.map_cons] at *
      refine congrArg₂ _ (hashAlert_eq_of_perm hab (hn _ (by simp))) ?_
      exact ih fun a ha => hn a (by simp [ha])

theorem foldl_xor_perm {h₁ h₂ : List Nat} (p : h₁.Perm h₂) :
    ∀ a : Nat, h₁.foldl (fun r x => r ^^^ x) a = h₂.foldl (fun r x => r ^^^ x) a := by
  induction p with
  | nil => intro a; rfl
  | cons x p ih => intro a; simp only [List.foldl_cons]; exact ih _
  | swap x y l =>
      intro a
      simp only [List.foldl_cons]
      rw [Nat.xor_assoc, Nat.xor_comm y x, ← Nat.xor_assoc]
  | trans p₁ p₂ ih₁ ih₂ => intro a; exact (ih₁ a).trans (ih₂ a)

theorem hashHashes_eq_of_perm {h₁ h₂ : List Nat} (p : h₁.Perm h₂) :
    hashHashes h₁ = hashHashes h₂ :=
  foldl_xor_perm p 0

/-- C1: the per-alert hash is computed over the label pairs sorted by name
ascending and the set fingerprint is the XOR of the members' hashes
(`hashAlert`, `hashHashes`); consequently the fingerprint is invariant under
any permutation of label insertion order inside each alert (`l₁` to `l₁p`,
alert by alert) and any permutation of the alerts within the set (`l₁p` to
`l₂`). -/
theorem fingerprint_order_independent (l₁ l₁p l₂ : List Alert)
    (hlabels : List.Forall₂ (fun a b => a.Labels.Perm b.Labels) l₁ l₁p)
    (hnodup : ∀ a ∈ l₁, (a.Labels.map Prod.fst).Nodup)
    (halerts : l₁p.Perm l₂) :
    hashHashes (alertHashes l₁) = hashHashes (alertHashes l₂) := by
  rw [alertHashes_eq_of_forall₂ hlabels hnodup]
  exact hashHashes_eq_of_perm (halerts.map hashAlert)

/-- Witness for C1 at a concrete input: the alert `{a:1, b:2}` written with its
labels in either order, and the two-alert set in either order, fingerprint
identically. -/
theorem fingerprint_order_independent_witness :
    hashHashes (alertHashes [⟨[("b", "2"), ("a", "1")]⟩, ⟨[("c", "3")]⟩]) =
    hashHashes (alertHashes [⟨[("c", "3")]⟩, ⟨[("a", "1"), ("b", "2")]⟩]) :=
  fingerprint_order_independent _ [⟨[("a", "1"), ("b", "2")]⟩, ⟨[("c", "3")]⟩] _
    (List.Forall₂.cons (by decide) (List.Forall₂.cons (by decide) List.Forall₂.nil))
    (by intro a ha; fin_cases ha <;> decide)
    (by decide)

theorem foldl_xor_hash_shift (l : List Alert) :
    ∀ a : Nat, l.foldl (fun res x => res ^^^ hashAlert x) a =
      a ^^^ l.foldl (fun res x => res ^^^ hashAlert x) 0 := by
  induction l with
  | nil => intro a; simp
  | cons x l ih =>
      intro a
      simp only [List.foldl_cons]
      rw [ih (a ^^^ hashAlert x), ih (0 ^^^ hashAlert x), Nat.zero_xor, Nat.xor_assoc]

/-- C2: for every alert set `A`, the fingerprint of `A ++ A` is `0`, which is
also the fingerprint of the empty set (duplicate-cancellation of the XOR
combine in `hashAlerts`). -/
theorem hashAlerts_self_append (A : List Alert) :
    hashAlerts (A ++ A) = 0 ∧ hashAlerts [] = 0 := by
  constructor
  · unfold hashAlerts
    rw [List.foldl_append, foldl_xor_hash_shift A (List.foldl _ 0 A), Nat.xor_self]
  · rfl

/-! ### The chronological event merge (`mergeSortEvents`, part_001 lines 134-167) -/

/-- An event as consumed by the merge: the `Event` interface (receive.go lines
66-69) exposes only a timestamp (`time.Time`, modelled as a natural number,
with `Before` the strict order `<`) and a payload the merge never inspects. -/
structure Event where
  ts : Nat
  payload : String
deriving DecidableEq

/-- Non-strict timestamp order (ascending-by-timestamp sortedness). -/
def tsLE (a b : Event) : Prop := a.ts ≤ b.ts

instance : DecidableRel tsLE := fun a b => inferInstanceAs (Decidable (a.ts ≤ b.ts))

/-- The inner selection loop of `mergeSortEvents` (part_001 lines 140-152),
`for i := range e` with the running index `i` and incumbent `min`.  The pair
`(e[i], indices[i])` of the source is represented throughout by the unconsumed
suffix of `e[i]`: an originally empty sequence keeps the empty suffix, and a
sequence still present in `e` always has `indices[i] < len(e[i])` (exhausted
sequences are removed by the outer loop in the very iteration that exhausts
them), so `curEvents[curIndex]` is the head of the suffix.  The first list
argument iterates over the suffix `e.drop i` of `e` itself.  `none` models the
out-of-range panic of `curMinEvents[indices[min]]` when `e[min]` is empty. -/
def findMinGo (e : List (List Event)) : List (List Event) → Nat → Nat → Option Nat
  | [], _, min => some min
  | curEvents :: rest, i, min =>
    match curEvents.head? with
    | none => findMinGo e rest (i + 1) min
    | some cur =>
      match (e.getD min []).head? with
      | none => none
      | some curMin =>
        if cur.ts < curMin.ts then findMinGo e rest (i + 1) i
        else findMinGo e rest (i + 1) min

/-- The outer loop of `mergeSortEvents` (part_001 lines 139-164) in the same
suffix representation: emit the current element of `e[min]` when it exists
(`len(minEvents)-1 >= minIndex`), advance `minIndex` (drop the head of the
suffix), and remove the sequence once exhausted, resetting `min` to 0;
otherwise `min` persists to the next iteration exactly as in the source.
`fuel` is an explicit iteration bound; `mergeSortEvents` supplies a bound that
is never reached, since every iteration either consumes one event or removes
one sequence. -/
def mergeLoop : Nat → List (List Event) → Nat → List Event → Option (List Event)
  | 0, _, _, _ => none
  | fuel + 1, e, min, events =>
    if e.isEmpty then some events
    else
      match findMinGo e e 0 min with
      | none => none
      | some m =>
        let minEvents := e.getD m []
        let events2 := match minEvents.head? with
          | some x => events ++ [x]
          | none => events
        let e2 := e.set m minEvents.tail
        if (e2.getD m []).isEmpty then mergeLoop fuel (e2.eraseIdx m) 0 events2
        else mergeLoop fuel e2 m events2

/-- `mergeSortEvents` (part_001 lines 134-167): merge the per-stream event
sequences chronologically, starting with empty accumulator and `min = 0`. -/
def mergeSortEvents (e : List (List Event)) : Option (List Event) :=
  mergeLoop ((e.map List.length).sum + e.length + 1) e 0 []

example :
    mergeSortEvents [[⟨1, "A"⟩, ⟨3, "A"⟩], [⟨2, "B"⟩, ⟨3, "B"⟩]] =
      some [⟨1, "A"⟩, ⟨2, "B"⟩, ⟨3, "B"⟩, ⟨3, "A"⟩] := by decide

example : mergeSortEvents [[], [⟨1, "B"⟩]] = none := by decide

example : mergeSortEvents [[⟨5, "A"⟩], []] = some [⟨5, "A"⟩] := by decide

example : mergeSortEvents [[⟨1, "A"⟩, ⟨2, "Q"⟩], [], [⟨9, "C"⟩]] = none := by decide

/-- Timestamp of the current (head) element of sequence `k`, defaulting to 0
for an empty or out-of-range sequence. -/
def headTs (e : List (List Event)) (k : Nat) : Nat :=
  ((e.getD k []).head?.map Event.ts).getD 0

theorem getD_mem_of_lt {e : List (List Event)} {m : Nat} (h : m < e.length) :
    e.getD m [] ∈ e := by
  rw [List.getD_eq_getElem _ _ h]
  exact List.getElem_mem h

theorem sum_lengths_eraseIdx (e : List (List Event)) :
    ∀ m, m < e.length →
      ((e.eraseIdx m).map List.length).sum + (e.getD m []).length
        = (e.map List.length).sum := by
  induction e with
  | nil => intro m h; simp at h
  | cons a e ih =>
      intro m h
      cases m with
      | zero => simp [List.eraseIdx, Nat.add_comm]
      | succ m =>
          simp only [List.eraseIdx, List.map_cons, List.sum_cons, List.getD_cons_succ]
          have := ih m (by simpa using h)
          omega

theorem sum_lengths_set (e : List (List Event)) (a : List Event) :
    ∀ m, m < e.length →
      ((e.set m a).map List.length).sum + (e.getD m []).length
        = (e.map List.length).sum + a.length := by
  induction e with
  | nil => intro m h; simp at h
  | cons b e ih =>
      intro m h
      cases m with
      | zero => simp [List.set]; omega
      | succ m =>
          simp only [List.set, List.map_cons, List.sum_cons, List.getD_cons_succ]
          have := ih m (by simpa using h)
          omega

theorem eraseIdx_set_eq (e : List (List Event)) (a : List Event) :
    ∀ m, (e.set m a).eraseIdx m = e.eraseIdx m := by
  induction e with
  | nil => intro m; cases m <;> rfl
  | cons b e ih =>
      intro m
      cases m with
      | zero => rfl
      | succ m => simp only [List.set, List.eraseIdx]; rw [ih m]

theorem getD_set_self {e : List (List Event)} {a : List Event} {m : Nat}
    (h : m < e.length) : (e.set m a).getD m [] = a := by
  rw [List.getD_eq_getElem _ _ (by simpa using h)]
  exact List.getElem_set_self _

theorem flatten_eraseIdx_perm (e : List (List Event)) :
    ∀ m, m < e.length →
      e.flatten.Perm (e.getD m [] ++ (e.eraseIdx m).flatten) := by
  induction e with
  | nil => intro m h; simp at h
  | cons a e ih =>
      intro m h
      cases m with
      | zero => simp [List.eraseIdx]
      | succ m =>
          simp only [List.flatten_cons, List.eraseIdx, List.getD_cons_succ]
          refine ((ih m (by simpa using h)).append_left a).trans ?_
          rw [← List.append_assoc, ← List.append_assoc]
          exact List.perm_append_comm.append_right _

theorem flatten_set_perm (e : List (List Event)) (a : List Event) :
    ∀ m, m < e.length →
      (e.set m a).flatten.Perm (a ++ (e.eraseIdx m).flatten) := by
  induction e with
  | nil => intro m h; simp at h
  | cons b e ih =>
      intro m h
      cases m with
      | zero => simp [List.set, List.eraseIdx]
      | succ m =>
          simp only [List.set, List.eraseIdx, List.flatten_cons]
          refine ((ih m (by simpa using h)).append_left b).trans ?_
          rw [← List.append_assoc, ← List.append_assoc]
          exact List.perm_append_comm.append_right _

theorem pairwise_head_le {x : Event} {l : List Event}
    (h : List.Pairwise tsLE (x :: l)) : ∀ y ∈ x :: l, x.ts ≤ y.ts := by
  intro y hy
  rcases List.mem_cons.mp hy with rfl | hy
  · exact le_refl _
  · exact (List.pairwise_cons.mp h).1 y hy

theorem findMinGo_spec (e : List (List Event)) (hne : ∀ l ∈ e, l ≠ []) :
    ∀ (suffix : List (List Event)) (i min : Nat),
      suffix = e.drop i → min < e.length →
      ∃ m, findMinGo e suffix i min = some m ∧ m < e.length ∧
        headTs e m ≤ headTs e min ∧
        ∀ j, i ≤ j → j < e.length → headTs e m ≤ headTs e j := by
  intro suffix
  induction suffix with
  | nil =>
      intro i min hsuf hmin
      have hlen : e.length ≤ i := by
        by_contra hc
        push_neg at hc
        have h2 := List.length_drop i e
        rw [← hsuf] at h2
        simp only [List.length_nil] at h2
        omega
      exact ⟨min, rfl, hmin, le_refl _, fun j hij hj => absurd hj (by omega)⟩
  | cons curEvents rest ih =>
      intro i min hsuf hmin
      have hi : i < e.length := by
        by_contra hc
        push_neg at hc
        rw [List.drop_eq_nil_of_le hc] at hsuf
        exact List.cons_ne_nil _ _ hsuf
      have hcurElem : e.getD i [] = curEvents := by
        rw [List.getD_eq_getElem _ _ hi]
        have h2 := List.head?_drop e i
        rw [← hsuf, List.head?_cons, List.getElem?_eq_getElem hi] at h2
        exact (Option.some.inj h2).symm
      have hrest : rest = e.drop (i + 1) := by
        rw [← List.tail_drop, ← hsuf, List.tail_cons]
      have hcurne : curEvents ≠ [] := by
        rw [← hcurElem]; exact hne _ (getD_mem_of_lt hi)
      obtain ⟨cur, curTail, rfl⟩ := List.exists_cons_of_ne_nil hcurne
      have hminne : e.getD min [] ≠ [] := hne _ (getD_mem_of_lt hmin)
      obtain ⟨curMin, minTail, hMinEq⟩ := List.exists_cons_of_ne_nil hminne
      have hti : headTs e i = cur.ts := by simp only [headTs]; rw [hcurElem]; rfl
      have htm : headTs e min = curMin.ts := by simp only [headTs]; rw [hMinEq]; rfl
      simp only [findMinGo, List.head?_cons, hMinEq]
      by_cases hlt : cur.ts < curMin.ts
      · rw [if_pos hlt]
        obtain ⟨m, heq, hm, hle1, hle2⟩ := ih (i + 1) i hrest hi
        refine ⟨m, heq, hm, ?_, ?_⟩
        · rw [htm]
          exact le_trans (hti ▸ hle1) (le_of_lt hlt)
        · intro j hij hj
          rcases Nat.eq_or_lt_of_le hij with rfl | hij2
          · exact hle1
          · exact hle2 j hij2 hj
      · rw [if_neg hlt]
        obtain ⟨m, heq, hm, hle1, hle2⟩ := ih (i + 1) min hrest hmin
        refine ⟨m, heq, hm, hle1, ?_⟩
        intro j hij hj
        rcases Nat.eq_or_lt_of_le hij with rfl | hij2
        · rw [hti]
          exact le_trans (htm ▸ hle1) (le_of_not_lt hlt)
        · exact hle2 j hij2 hj

theorem min_head_le_all {e : List (List Event)} (hne : ∀ l ∈ e, l ≠ [])
    (hsort : ∀ l ∈ e, List.Pairwise tsLE l) {m : Nat}
    (hb : ∀ j, 0 ≤ j → j < e.length → headTs e m ≤ headTs e j) :
    ∀ l ∈ e, ∀ y ∈ l, headTs e m ≤ y.ts := by
  intro l hl y hy
  obtain ⟨j, hj, hje⟩ := List.mem_iff_getElem.mp hl
  have h1 : headTs e m ≤ headTs e j := hb j (Nat.zero_le _) hj
  have hlelem : e.getD j [] = l := by rw [List.getD_eq_getElem _ _ hj]; exact hje
  obtain ⟨z, tl, rfl⟩ := List.exists_cons_of_ne_nil (hne l hl)
  have h2 : headTs e j = z.ts := by simp only [headTs]; rw [hlelem]; rfl
  exact le_trans (h2 ▸ h1) (pairwise_head_le (hsort _ hl) y hy)

theorem mergeLoop_sound :
    ∀ (fuel : Nat) (e : List (List Event)) (min : Nat) (events : List Event),
      (∀ l ∈ e, l ≠ []) →
      (∀ l ∈ e, List.Pairwise tsLE l) →
      (e = [] ∨ min < e.length) →
      List.Pairwise tsLE events →
      (∀ a ∈ events, ∀ l ∈ e, ∀ y ∈ l, a.ts ≤ y.ts) →
      (e.map List.length).sum + e.length < fuel →
      ∃ r, mergeLoop fuel e min events = some r ∧
        r.Perm (events ++ e.flatten) ∧ List.Pairwise tsLE r := by
  intro fuel
  induction fuel with
  | zero => intro e min events _ _ _ _ _ hf; exact absurd hf (Nat.not_lt_zero _)
  | succ fuel ih =>
      intro e min events hne hsort hmin hev hle hf
      rcases eq_or_ne e [] with rfl | he
      · exact ⟨events, by simp [mergeLoop], by simp, hev⟩
      have hminlt : min < e.length := hmin.resolve_left he
      obtain ⟨m, hfm, hm, _, hball⟩ := findMinGo_spec e hne e 0 min rfl hminlt
      obtain ⟨x, xt, hx⟩ := List.exists_cons_of_ne_nil (hne _ (getD_mem_of_lt hm))
      have hxall : ∀ l ∈ e, ∀ y ∈ l, x.ts ≤ y.ts := by
        have h0 := min_head_le_all hne hsort hball
        have hxts : headTs e m = x.ts := by simp only [headTs]; rw [hx]; rfl
        rwa [hxts] at h0
      have hxmem : x ∈ e.getD m [] := by rw [hx]; exact List.mem_cons_self _ _
      have hEfalse : e.isEmpty = false := by simpa [List.isEmpty_iff] using he
      have hgdset : (e.set m xt).getD m [] = xt := getD_set_self hm
      have hx2 : (e[m]?).getD [] = x :: xt := by
        rw [← List.getD_eq_getElem?_getD]; exact hx
      have hgdset2 : ((e.set m xt)[m]?).getD [] = xt := by
        rw [← List.getD_eq_getElem?_getD]; exact hgdset
      have hstep : mergeLoop (fuel + 1) e min events =
          if xt = []
          then mergeLoop fuel ((e.set m xt).eraseIdx m) 0 (events ++ [x])
          else mergeLoop fuel (e.set m xt) m (events ++ [x]) := by
        simp [mergeLoop, hEfalse, hfm, hx2, hgdset2]
      have hevx : List.Pairwise tsLE (events ++ [x]) := by
        rw [List.pairwise_append]
        refine ⟨hev, by simp, ?_⟩
        intro a ha b hb
        rcases List.mem_singleton.mp hb with rfl
        exact hle a ha _ (getD_mem_of_lt hm) _ hxmem
      rcases eq_or_ne xt [] with rfl | hxt
      · have heq : (e.set m []).eraseIdx m = e.eraseIdx m := eraseIdx_set_eq e [] m
        have hne2 : ∀ l ∈ e.eraseIdx m, l ≠ [] :=
          fun l hl => hne l ((List.eraseIdx_sublist e m).subset hl)
        have hsort2 : ∀ l ∈ e.eraseIdx m, List.Pairwise tsLE l :=
          fun l hl => hsort l ((List.eraseIdx_sublist e m).subset hl)
        have hmin2 : e.eraseIdx m = [] ∨ 0 < (e.eraseIdx m).length := by
          rcases eq_or_ne (e.eraseIdx m) [] with h | h
          · exact Or.inl h
          · exact Or.inr (List.length_pos.mpr h)
        have hle2 : ∀ a ∈ events ++ [x], ∀ l ∈ e.eraseIdx m, ∀ y ∈ l, a.ts ≤ y.ts := by
          intro a ha l hl y hy
          have hlee : l ∈ e := (List.eraseIdx_sublist e m).subset hl
          rcases List.mem_append.mp ha with ha | ha
          · exact hle a ha l hlee y hy
          · rcases List.mem_singleton.mp ha with rfl
            exact hxall l hlee y hy
        have hf2 : ((e.eraseIdx m).map List.length).sum + (e.eraseIdx m).length < fuel := by
          have h1 := sum_lengths_eraseIdx e m hm
          rw [hx] at h1
          simp only [List.length_cons, List.length_nil] at h1
          have h2 : (e.eraseIdx m).length = e.length - 1 := by
            rw [List.length_eraseIdx]
            simp [hm]
          omega
        obtain ⟨r, hr, hperm, hsorted⟩ :=
          ih (e.eraseIdx m) 0 (events ++ [x]) hne2 hsort2 hmin2 hevx hle2 hf2
        refine ⟨r, ?_, ?_, hsorted⟩
        · rw [hstep, if_pos rfl, heq]
          exact hr
        · refine hperm.trans ?_
          rw [List.append_assoc]
          refine List.Perm.append_left events ?_
          have h3 := flatten_eraseIdx_perm e m hm
          rw [hx] at h3
          exact h3.symm
      · have hne2 : ∀ l ∈ e.set m xt, l ≠ [] := by
          intro l hl
          rcases List.mem_or_eq_of_mem_set hl with hl2 | rfl
          · exact hne l hl2
          · exact hxt
        have hsort2 : ∀ l ∈ e.set m xt, List.Pairwise tsLE l := by
          intro l hl
          rcases List.mem_or_eq_of_mem_set hl with hl2 | rfl
          · exact hsort l hl2
          · have h4 := hsort _ (getD_mem_of_lt hm)
            rw [hx] at h4
            exact (List.pairwise_cons.mp h4).2
        have hmin2 : e.set m xt = [] ∨ m < (e.set m xt).length := Or.inr (by simpa using hm)
        have hle2 : ∀ a ∈ events ++ [x], ∀ l ∈ e.set m xt, ∀ y ∈ l, a.ts ≤ y.ts := by
          intro a ha l hl y hy
          obtain ⟨l2, hl2, hyl2⟩ : ∃ l2 ∈ e, y ∈ l2 := by
            rcases List.mem_or_eq_of_mem_set hl with hl2 | rfl
            · exact ⟨l, hl2, hy⟩
            · exact ⟨_, getD_mem_of_lt hm, by rw [hx]; exact List.mem_cons_of_mem _ hy⟩
          rcases List.mem_append.mp ha with ha | ha
          · exact hle a ha l2 hl2 y hyl2
          · rcases List.mem_singleton.mp ha with rfl
            exact hxall l2 hl2 y hyl2
        have hf2 : ((e.set m xt).map List.length).sum + (e.set m xt).length < fuel := by
          have h1 := sum_lengths_set e xt m hm
          rw [hx] at h1
          simp only [List.length_cons] at h1
          have h2 : (e.set m xt).length = e.length := List.length_set e m xt
          omega
        obtain ⟨r, hr, hperm, hsorted⟩ :=
          ih (e.set m xt) m (events ++ [x]) hne2 hsort2 hmin2 hevx hle2 hf2
        refine ⟨r, ?_, ?_, hsorted⟩
        · rw [hstep, if_neg hxt]
          exact hr
        · refine hperm.trans ?_
          rw [List.append_assoc]
          refine List.Perm.append_left events ?_
          have h3 := flatten_set_perm e xt m hm
          have h4 := flatten_eraseIdx_perm e m hm
          rw [hx] at h4
          exact (h3.append_left [x]).trans h4.symm

/-- C3 counterexample: a collection of sequences each sorted ascending by
timestamp (the empty first sequence is vacuously sorted) on which
`mergeSortEvents` hits the out-of-range read of the empty incumbent sequence
and returns no merged sequence at all, refuting the claim for arbitrary sorted
input collections. -/
theorem mergeSortEvents_not_total_on_sorted_inputs :
    (∀ l ∈ ([[], [⟨1, "B"⟩]] : List (List Event)), List.Pairwise tsLE l) ∧
      mergeSortEvents [[], [⟨1, "B"⟩]] = none := by
  constructor
  · decide
  · decide

/-- C3 amended: for every collection of non-empty input sequences, each sorted
ascending by timestamp, `mergeSortEvents` returns a sequence containing every
input event exactly once (a permutation of the concatenation) sorted ascending
by timestamp.  (The restriction to non-empty sequences is forced: with an
empty sequence in front of a non-empty one the source indexes the empty
sequence out of range, see the counterexample.) -/
theorem mergeSortEvents_sound (e : List (List Event))
    (hne : ∀ l ∈ e, l ≠ [])
    (hsort : ∀ l ∈ e, List.Pairwise tsLE l) :
    ∃ r, mergeSortEvents e = some r ∧ r.Perm e.flatten ∧ List.Pairwise tsLE r := by
  have hmin : e = [] ∨ 0 < e.length := by
    rcases eq_or_ne e [] with h | h
    · exact Or.inl h
    · exact Or.inr (List.length_pos.mpr h)
  obtain ⟨r, h1, h2, h3⟩ :=
    mergeLoop_sound ((e.map List.length).sum + e.length + 1) e 0 [] hne hsort hmin
      (by simp) (by simp) (by omega)
  exact ⟨r, h1, by simpa using h2, h3⟩

/-- Witness for the amended C3 at a concrete input: three non-empty sorted
streams merge into a sorted permutation of all six events. -/
theorem mergeSortEvents_sound_witness :
    ∃ r, mergeSortEvents [[⟨1, "A"⟩, ⟨4, "A"⟩], [⟨2, "B"⟩], [⟨0, "C"⟩, ⟨2, "C"⟩, ⟨9, "C"⟩]]
        = some r ∧
      r.Perm ([[⟨1, "A"⟩, ⟨4, "A"⟩], [⟨2, "B"⟩],
        [⟨0, "C"⟩, ⟨2, "C"⟩, ⟨9, "C"⟩]] : List (List Event)).flatten ∧
      List.Pairwise tsLE r :=
  mergeSortEvents_sound _ (by decide) (by decide)

/-- C4 counterexample: merging the sorted streams `[(1,A),(3,A)]` and
`[(2,B),(3,B)]` does not return `[(1,A),(2,B),(3,A),(3,B)]`: the tie at
timestamp 3 is not won by the first-listed stream. -/
theorem merge_tie_not_first_stream :
    mergeSortEvents [[⟨1, "A"⟩, ⟨3, "A"⟩], [⟨2, "B"⟩, ⟨3, "B"⟩]] ≠
      some [⟨1, "A"⟩, ⟨2, "B"⟩, ⟨3, "A"⟩, ⟨3, "B"⟩] := by
  decide

/-- C4 amended: when two input sequences tie on the current timestamp the
incumbent wins --- the sequence selected in the previous iteration (`min` is
only reset to the first sequence after a sequence is removed), because the
comparison `cur.Timestamp().Before(curMin.Timestamp())` is strict and the scan
starts from the previous `min`; in particular merging the sorted streams
`[(1,A),(3,A)]` and `[(2,B),(3,B)]` returns exactly
`[(1,A),(2,B),(3,B),(3,A)]`. -/
theorem merge_tie_incumbent_wins :
    mergeSortEvents [[⟨1, "A"⟩, ⟨3, "A"⟩], [⟨2, "B"⟩, ⟨3, "B"⟩]] =
      some [⟨1, "A"⟩, ⟨2, "B"⟩, ⟨3, "B"⟩, ⟨3, "A"⟩] := by
  decide

theorem findMinGo_none (e : List (List Event)) (hmin0 : e.getD 0 [] = []) :
    ∀ (suffix : List (List Event)) (i : Nat), (∃ l ∈ suffix, l ≠ []) →
      findMinGo e suffix i 0 = none := by
  intro suffix
  induction suffix with
  | nil => intro i h; obtain ⟨l, hl, _⟩ := h; cases hl
  | cons curEvents rest ih =>
      intro i h
      rcases eq_or_ne curEvents [] with rfl | hcur
      · simp only [findMinGo, List.head?_nil]
        refine ih (i + 1) ?_
        obtain ⟨l, hl, hlne⟩ := h
        rcases List.mem_cons.mp hl with rfl | hl2
        · exact absurd rfl hlne
        · exact ⟨l, hl2, hlne⟩
      · obtain ⟨cur, curTail, rfl⟩ := List.exists_cons_of_ne_nil hcur
        simp only [findMinGo, List.head?_cons, hmin0, List.head?_nil]

/-- C10: whenever the first input sequence is empty while some other input
sequence is non-empty, the selection loop of `mergeSortEvents` reads the
current element of the empty incumbent first sequence --- an out-of-range
index --- so the merge returns no merged result on such inputs. -/
theorem mergeSortEvents_empty_first (rest : List (List Event))
    (h : ∃ l ∈ rest, l ≠ []) :
    mergeSortEvents ([] :: rest) = none := by
  have hfm : findMinGo ([] :: rest) ([] :: rest) 0 0 = none := by
    have h1 : findMinGo ([] :: rest) ([] :: rest) 0 0
        = findMinGo ([] :: rest) rest 1 0 := by
      simp only [findMinGo, List.head?_nil]
    rw [h1]
    exact findMinGo_none ([] :: rest) rfl rest 1 h
  unfold mergeSortEvents
  simp [mergeLoop, hfm]

/-- Witness for C10 at a concrete input: an empty first stream followed by a
non-empty one makes the merge return no result. -/
theorem mergeSortEvents_empty_first_witness :
    mergeSortEvents [[], [⟨2, "C"⟩]] = none :=
  mergeSortEvents_empty_first [[⟨2, "C"⟩]] ⟨[⟨2, "C"⟩], by decide⟩

/-! ### The alert batcher (`AlertProducer.makeAlerts`, part_001 lines 246-272) -/

/-- `AlertProducer` (part_001 lines 246-252): per-producer cursor state.
A fresh producer from `NewLoadTest` has `batchRepeated = 0` (Go zero value). -/
structure AlertProducer where
  index : Nat
  batch : Nat
  interval : Nat
  batchRepeated : Nat
deriving DecidableEq

/-- The window selection of `AlertProducer.makeAlerts` (part_001 lines
254-272): when the repeat counter has reached the rotation interval, advance
the cursor by one batch width and reset the counter, then serve
`dataset.Get(p.index, p.index+p.batch)` and increment the counter.  Returns
the half-open window passed to `Dataset.Get` together with the updated
producer state; turning the window's label sets into alert objects is the
dataset's concern (claim C6) and does not touch the cursor state. -/
def makeAlertsWindow (p : AlertProducer) : (Nat × Nat) × AlertProducer :=
  let p1 := if p.batchRepeated == p.interval
    then { p with index := p.index + p.batch, batchRepeated := 0 }
    else p
  ((p1.index, p1.index + p1.batch), { p1 with batchRepeated := p1.batchRepeated + 1 })

/-- Producer state after `n` further calls to `makeAlerts`. -/
def stateAfter (p : AlertProducer) : Nat → AlertProducer
  | 0 => p
  | n + 1 => stateAfter (makeAlertsWindow p).2 n

/-- The window served by the `n`-th call (0-based) to `makeAlerts` starting
from producer state `p`. -/
def nthWindow (p : AlertProducer) : Nat → Nat × Nat
  | 0 => (makeAlertsWindow p).1
  | n + 1 => nthWindow (makeAlertsWindow p).2 n

theorem nthWindow_add (p : AlertProducer) :
    ∀ (a n : Nat), nthWindow p (a + n) = nthWindow (stateAfter p a) n := by
  intro a
  induction a generalizing p with
  | zero => intro n; rw [Nat.zero_add]; rfl
  | succ a ih =>
      intro n
      have h1 : a + 1 + n = (a + n) + 1 := by omega
      rw [h1]
      show nthWindow (makeAlertsWindow p).2 (a + n) = _
      rw [ih (makeAlertsWindow p).2 n]
      rfl

theorem stateAfter_within_interval (c b r : Nat) :
    ∀ (j cnt : Nat), cnt + j ≤ r →
      stateAfter ⟨c, b, r, cnt⟩ j = ⟨c, b, r, cnt + j⟩ := by
  intro j
  induction j with
  | zero => intro cnt _; rfl
  | succ j ih =>
      intro cnt hcnt
      have hne : (cnt == r) = false := by
        refine beq_eq_false_iff_ne.mpr ?_
        omega
      show stateAfter (makeAlertsWindow ⟨c, b, r, cnt⟩).2 j = _
      have hstep : (makeAlertsWindow ⟨c, b, r, cnt⟩).2 = ⟨c, b, r, cnt + 1⟩ := by
        simp [makeAlertsWindow, hne]
      rw [hstep, ih (cnt + 1) (by omega)]
      congr 1
      omega

theorem nthWindow_within_interval (c b r : Nat) :
    ∀ (j cnt : Nat), cnt + j < r →
      nthWindow ⟨c, b, r, cnt⟩ j = (c, c + b) := by
  intro j
  induction j with
  | zero =>
      intro cnt hcnt
      have hne : (cnt == r) = false := by
        refine beq_eq_false_iff_ne.mpr ?_
        omega
      show (makeAlertsWindow ⟨c, b, r, cnt⟩).1 = _
      simp [makeAlertsWindow, hne]
  | succ j ih =>
      intro cnt hcnt
      have hne : (cnt == r) = false := by
        refine beq_eq_false_iff_ne.mpr ?_
        omega
      show nthWindow (makeAlertsWindow ⟨c, b, r, cnt⟩).2 j = _
      have hstep : (makeAlertsWindow ⟨c, b, r, cnt⟩).2 = ⟨c, b, r, cnt + 1⟩ := by
        simp [makeAlertsWindow, hne]
      rw [hstep, ih (cnt + 1) (by omega)]

theorem makeAlertsWindow_rotate_eq (c b r : Nat) (hr : 0 < r) :
    makeAlertsWindow ⟨c, b, r, r⟩ = makeAlertsWindow ⟨c + b, b, r, 0⟩ := by
  have h1 : (r == r) = true := beq_self_eq_true r
  have h2 : ((0 : Nat) == r) = false := by
    refine beq_eq_false_iff_ne.mpr ?_
    omega
  simp [makeAlertsWindow, h1, h2]

/-- C5: for every batcher with batch width `b`, rotation interval `r` and
initial cursor `c` (fresh repeat counter), the call numbered `k*r + j` for
`j < r` serves exactly the window `[c + k*b, c + k*b + b)`: the same window is
served for exactly `r` consecutive calls, after which the cursor advances by
exactly one full batch width, never partially. -/
theorem makeAlerts_window_rotation (c b r : Nat) :
    ∀ (k j : Nat), j < r →
      nthWindow ⟨c, b, r, 0⟩ (k * r + j) = (c + k * b, c + k * b + b) := by
  intro k
  induction k generalizing c with
  | zero =>
      intro j hj
      simpa using nthWindow_within_interval c b r j 0 (by omega)
  | succ k ih =>
      intro j hj
      have hr : 0 < r := Nat.lt_of_le_of_lt (Nat.zero_le j) hj
      have h1 : (k + 1) * r + j = r + (k * r + j) := by ring
      rw [h1, nthWindow_add,
        stateAfter_within_interval c b r r 0 (by omega)]
      have h2 : ∀ n, nthWindow ⟨c, b, r, 0 + r⟩ n = nthWindow ⟨c + b, b, r, 0⟩ n := by
        intro n
        cases n with
        | zero =>
            show (makeAlertsWindow _).1 = (makeAlertsWindow _).1
            rw [show (⟨c, b, r, 0 + r⟩ : AlertProducer) = ⟨c, b, r, r⟩ by simp,
              makeAlertsWindow_rotate_eq c b r hr]
        | succ n =>
            show nthWindow (makeAlertsWindow _).2 n = nthWindow (makeAlertsWindow _).2 n
            rw [show (⟨c, b, r, 0 + r⟩ : AlertProducer) = ⟨c, b, r, r⟩ by simp,
              makeAlertsWindow_rotate_eq c b r hr]
      rw [h2, ih (c + b) j hj]
      refine congrArg₂ _ (by ring) (by ring)

/-- Witness for C5 at the spec's concrete parameters `batchSize = 5`,
`rotationInterval = 3`, cursor 0: the sixth call (call number 1*3+2) serves
the second window `[5, 10)`. -/
theorem makeAlerts_window_rotation_witness :
    nthWindow ⟨0, 5, 3, 0⟩ (1 * 3 + 2) = (0 + 1 * 5, 0 + 1 * 5 + 5) :=
  makeAlerts_window_rotation 0 5 3 1 2 (by decide)

/-! ### The lazily-grown dataset cache (`Dataset.Get`, part_001 lines 274-318) -/

/-- A label set as produced by the external exposition-format line parser
(`labels.Labels`, a sequence of name/value pairs). -/
abbrev LabelSet := List (String × String)

/-- `Dataset` (part_001 lines 274-286): the not-yet-scanned lines remaining in
the underlying `bufio.Scanner` plus the materialized label sets; the mutex is
modelled by atomic state transitions. -/
structure Dataset where
  lines : List String
  dataset : List LabelSet
deriving DecidableEq

/-- The raw bytes accumulated for the parser by the growth loop of
`Dataset.Get` (part_001 lines 295-306): each scanned line's text followed by a
newline byte. -/
def rawBytes (lines : List String) : String :=
  String.join (lines.map (fun l => l ++ "\n"))

/-- `Dataset.Get` (part_001 lines 288-318), parametrized by the external
exposition-format parser `parse` (the spec treats it as a black-box
`parse(bytes) -> sequence of label-sets`).  If `t` is within the materialized
length, return the slice `d.dataset[f:t]` from cache without touching the
scanner.  Otherwise scan exactly `t - len(d.dataset)` further lines (or every
remaining line if the scanner is exhausted first), hand the accumulated raw
bytes to the parser in a single invocation, append the parsed label sets in
order, and return `d.dataset[f:t]`.  The updated state is returned alongside
the result; a result of `none` models the Go panic of an out-of-bounds slice
`d.dataset[f:t]`. -/
def datasetGet (parse : String → List LabelSet) (d : Dataset) (f t : Nat) :
    Option (List LabelSet) × Dataset :=
  if t ≤ d.dataset.length then
    (if f ≤ t then some ((d.dataset.take t).drop f) else none, d)
  else
    let n := t - d.dataset.length
    let newLines := d.lines.take n
    let labelsets := parse (rawBytes newLines)
    let dataset2 := d.dataset ++ labelsets
    (if f ≤ t ∧ t ≤ dataset2.length then some ((dataset2.take t).drop f) else none,
      ⟨d.lines.drop n, dataset2⟩)

/-- C6: a `Get(f, t)` with `t` within the materialized length is served
entirely from the cache --- the state, and in particular the unread line
source, is untouched; otherwise exactly `t - len(dataset)` new lines are
consumed from the source, the external parser is invoked once on the raw
bytes of just those new lines, and its output label sets are appended in
order.  Consequently `Get(0, n)` followed by `Get(n, 2n)` reads exactly `n`
new lines on the second call and re-reads none of the first `n`. -/
theorem datasetGet_spec (parse : String → List LabelSet) (d : Dataset) (f t : Nat)
    (hft : f ≤ t) :
    (t ≤ d.dataset.length →
      datasetGet parse d f t = (some ((d.dataset.take t).drop f), d)) ∧
    (d.dataset.length < t → t - d.dataset.length ≤ d.lines.length →
      (datasetGet parse d f t).2.lines = d.lines.drop (t - d.dataset.length) ∧
      d.lines.length - (datasetGet parse d f t).2.lines.length = t - d.dataset.length ∧
      (datasetGet parse d f t).2.dataset
        = d.dataset ++ parse (rawBytes (d.lines.take (t - d.dataset.length)))) := by
  constructor
  · intro hcache
    rw [datasetGet, if_pos hcache, if_pos hft]
  · intro hgrow hlines
    rw [datasetGet, if_neg (by omega)]
    refine ⟨rfl, ?_, rfl⟩
    simp only [List.length_drop]
    omega

/-- Witness for C6 at a concrete input (with a concrete stand-in parser
producing one singleton label set per input byte run): growing a dataset with
two cached label sets to four consumes exactly two of the three remaining
lines and appends the parser output of exactly those two lines. -/
theorem datasetGet_spec_witness :
    (datasetGet (fun s => [[("raw", s)], [("raw2", s)]])
        ⟨["l3", "l4", "l5"], [[("a", "1")], [("b", "2")]]⟩ 2 4).2.lines
      = ["l3", "l4", "l5"].drop (4 - 2) ∧
    (datasetGet (fun s => [[("raw", s)], [("raw2", s)]])
        ⟨["l3", "l4", "l5"], [[("a", "1")], [("b", "2")]]⟩ 2 4).2.dataset
      = [[("a", "1")], [("b", "2")]]
          ++ (fun s => [[("raw", s)], [("raw2", s)]])
               (rawBytes (["l3", "l4", "l5"].take (4 - 2))) := by
  have h := (datasetGet_spec (fun s => [[("raw", s)], [("raw2", s)]])
    ⟨["l3", "l4", "l5"], [[("a", "1")], [("b", "2")]]⟩ 2 4 (by decide)).2
    (by decide) (by decide)
  exact ⟨h.1, h.2.2⟩

/-! ### Startup error propagation (`RunLoadTests`, part_001 lines 25-65, and
`Main`, part_000 lines 23-107) -/

/-- File-system outcomes for one configured test case: whether
`os.OpenFile(reportFilePath, ...)` and `os.Open(c.DatasetFile)`
(part_001 lines 31-39) succeed. -/
structure CaseEnv where
  reportCreateOk : Bool
  datasetOpenOk : Bool
deriving DecidableEq

/-- `RunLoadTests` (part_001 lines 25-65) reduced to its control flow over
file outcomes: for each test case, create the report file and open the
dataset file, returning the error immediately when either fails --- before
`NewLoadTest`/`lt.Run()`, i.e. before any producer of that case starts ---
and otherwise running the case's producers.  Returns the error outcome
together with the indices of the cases whose producers were started. -/
def runLoadTestsTrace : List CaseEnv → Nat → Option String × List Nat
  | [], _ => (none, [])
  | c :: rest, i =>
    if c.reportCreateOk = false then (some "creating report file failed", [])
    else if c.datasetOpenOk = false then (some "opening dataset file failed", [])
    else
      let next := runLoadTestsTrace rest (i + 1)
      (next.1, i :: next.2)

/-- Startup outcomes checked by `Main` (part_000 lines 23-102). -/
structure MainEnv where
  alertmanagerURLsOk : Bool
  configReadOk : Bool
  configParseOk : Bool
  listenOk : Bool
  cases : List CaseEnv
deriving DecidableEq

/-- `Main` (part_000): it returns 1 on the startup failures it checks itself
(URL parsing, reading the configuration file, unmarshalling it, listening on
the port).  Otherwise it spawns the load-test loop with
`go RunLoadTests(done, ...)`, a goroutine whose error return value is
discarded at the call site (line 77), and once either the termination signal
or the `done` channel fires it returns 0. -/
def mainExit (env : MainEnv) : Nat :=
  if env.alertmanagerURLsOk = false then 1
  else if env.configReadOk = false then 1
  else if env.configParseOk = false then 1
  else if env.listenOk = false then 1
  else
    let _discardedLoadTestError := (runLoadTestsTrace env.cases 0).1
    0

/-- C7 counterexample: with every startup check of `Main` succeeding but the
first test case's dataset file failing to open, `RunLoadTests` stops with the
error before starting any producer, yet the process exit status is 0, not
non-zero: the orchestrator's error return is discarded at the `go` call site,
refuting the claim that the error reaches the process boundary as a non-zero
exit. -/
theorem dataset_open_error_exit_zero :
    (runLoadTestsTrace [⟨true, false⟩] 0).1 = some "opening dataset file failed" ∧
    (runLoadTestsTrace [⟨true, false⟩] 0).2 = [] ∧
    mainExit ⟨true, true, true, true, [⟨true, false⟩]⟩ = 0 := by
  decide

/-- C7 amended: if opening the dataset file or creating the report file for a
test case fails, the run is aborted before any producer of that case starts
and the error is returned from the load-test loop to its caller; but it is
not surfaced as a non-zero exit status --- the loop runs as a goroutine whose
error result is discarded, and a process whose own startup checks all passed
exits with status 0. -/
theorem startup_file_error_aborts (c : CaseEnv) (rest : List CaseEnv) (i : Nat)
    (cases2 : List CaseEnv)
    (h : c.reportCreateOk = false ∨ c.datasetOpenOk = false) :
    (runLoadTestsTrace (c :: rest) i).1.isSome = true ∧
    (runLoadTestsTrace (c :: rest) i).2 = [] ∧
    mainExit ⟨true, true, true, true, cases2⟩ = 0 := by
  refine ⟨?_, ?_, rfl⟩ <;>
    · rcases h with h | h
      · simp [runLoadTestsTrace, h]
      · rcases hrep : c.reportCreateOk <;> simp [runLoadTestsTrace, h, hrep]

/-- Witness for the amended C7 at a concrete input: a failing report-file
creation on the second configured case. -/
theorem startup_file_error_aborts_witness :
    (runLoadTestsTrace [⟨false, true⟩] 1).1.isSome = true ∧
    (runLoadTestsTrace [⟨false, true⟩] 1).2 = [] ∧
    mainExit ⟨true, true, true, true, [⟨true, true⟩, ⟨false, true⟩]⟩ = 0 :=
  startup_file_error_aborts ⟨false, true⟩ [] 1 [⟨true, true⟩, ⟨false, true⟩]
    (Or.inl rfl)

/-! ### Receiver reset between test cases (receive.go lines 18-48 and
part_001 lines 52-61) -/

/-- The notification log of the `WebhookReceiver` (receive.go lines 18-34):
the mutex-guarded, append-only list of received events; the mutex is modelled
by atomic state transitions. -/
structure ReceiverState where
  notifications : List Event
deriving DecidableEq

/-- Modelled from the spec: `r.ResetEvents()` is called by the orchestrator
(part_001 line 60) but its definition is not among the given source files;
the spec specifies "a reset operation that atomically empties the log (used
between test cases)". -/
def resetEvents (_r : ReceiverState) : ReceiverState := ⟨[]⟩

/-- The `RunLoadTests` per-case loop (part_001 lines 27-61) as it affects the
receiver log: during each case the receiver appends that case's inbound
notifications to its log, the case's report is written from the receiver's
events at that point, and then `r.ResetEvents()` runs before the next case.
For each case it records the pair (receiver log at case start, receiver log
at report time). -/
def runCasesReceiver : ReceiverState → List (List Event) → List (ReceiverState × ReceiverState)
  | _, [] => []
  | r, arrivals :: rest =>
    let atReport : ReceiverState := ⟨r.notifications ++ arrivals⟩
    (r, atReport) :: runCasesReceiver (resetEvents atReport) rest

/-- C9: the receiver's reset empties the event log whatever it held, and
because the orchestrator resets after writing each case's report, every case
of a run that begins with an empty log starts with an empty received-event
log and its report observes exactly that case's own notifications. -/
theorem receiver_reset_between_cases (cases : List (List Event)) :
    (∀ r : ReceiverState, (resetEvents r).notifications = []) ∧
    runCasesReceiver ⟨[]⟩ cases = cases.map (fun a => (⟨[]⟩, ⟨a⟩)) := by
  refine ⟨fun _ => rfl, ?_⟩
  induction cases with
  | nil => rfl
  | cons a rest ih =>
      simp only [runCasesReceiver, List.map_cons, resetEvents, List.nil_append]
      rw [ih]

/-! ### Report line rendering for fired events (`alertsFiredEvent.Print`,
part_001 lines 186-201) -/

/-- `fmt.Sprintf("%x", h)`: lowercase hexadecimal without leading zeros. -/
def hexString (n : Nat) : String := String.mk (Nat.toDigits 16 n)

/-- Concatenation of a list of string fragments. -/
def concatAll : List String → String
  | [] => ""
  | s :: rest => s ++ concatAll rest

/-- `alertsFiredEvent` (part_001 lines 186-190). -/
structure AlertsFiredEvent where
  alertmanager : String
  alerts : List Alert
  timestamp : Nat

/-- `alertsFiredEvent.Print` (part_001 lines 192-201) as the sequence of
writes it performs on the output stream `out`, with the rendering of
`e.timestamp.UTC().Format(TimeFormat)` supplied as `fmtTime` (Go time
formatting is standard-library behaviour; the claim concerns the line
structure around it).  The writes are: the literal `"ALERTS       "`
(`ALERTS` followed by seven spaces), the formatted timestamp and a space, the
target and a space, then `" %x"` for each per-alert hash of `alertHashes`,
then a newline. -/
def printAlertsFired (fmtTime : Nat → String) (e : AlertsFiredEvent) (out : String) : String :=
  let o1 := out ++ "ALERTS       "
  let o2 := o1 ++ (fmtTime e.timestamp ++ " ")
  let o3 := o2 ++ (e.alertmanager ++ " ")
  let o4 := (alertHashes e.alerts).foldl (fun acc h => acc ++ (" " ++ hexString h)) o3
  o4 ++ "\n"

/-- The line shape asserted by the claim, stated from the claim's words for
comparison: exactly the string `"ALERTS "` (a single space), the timestamp, a
single space, the target identity, then one hex hash per alert each preceded
by a single space, terminated by a newline. -/
def claimedAlertsLine (fmtTime : Nat → String) (e : AlertsFiredEvent) : String :=
  "ALERTS " ++ fmtTime e.timestamp ++ " " ++ e.alertmanager
    ++ concatAll ((alertHashes e.alerts).map (fun h => " " ++ hexString h)) ++ "\n"

/-- C8 counterexample: for a concrete fired event the rendered line differs
from the claimed shape: the source writes `"ALERTS"` followed by seven spaces
(aligning the column with `"NOTIFICATION "`), and writes a space after the
target before the space-prefixed hashes, so two spaces separate the target
from the first hash. -/
theorem alertsFired_line_not_claimed_shape :
    printAlertsFired (fun _ => "T") ⟨"am1", [⟨[("a", "b")]⟩], 7⟩ ""
      ≠ claimedAlertsLine (fun _ => "T") ⟨"am1", [⟨[("a", "b")]⟩], 7⟩ := by
  decide

theorem foldl_hash_fragments (l : List Nat) :
    ∀ acc : String, l.foldl (fun acc h => acc ++ (" " ++ hexString h)) acc
      = acc ++ concatAll (l.map (fun h => " " ++ hexString h)) := by
  induction l with
  | nil => intro acc; rw [List.foldl_nil, List.map_nil, concatAll, String.append_empty]
  | cons h l ih =>
      intro acc
      rw [List.foldl_cons, List.map_cons, concatAll, ih, String.append_assoc]

/-- C8 amended: for every fired event, the rendered report line is exactly
`"ALERTS"` followed by seven spaces, the formatted UTC timestamp, a single
space, the target identity, a single space, then one hex 64-bit per-alert
hash per delivered alert each preceded by a single space (so two spaces stand
between the target and the first hash), terminated by a newline. -/
theorem alertsFired_line_format (fmtTime : Nat → String) (e : AlertsFiredEvent) :
    printAlertsFired fmtTime e ""
      = "ALERTS       " ++ fmtTime e.timestamp ++ " " ++ e.alertmanager ++ " "
        ++ concatAll ((alertHashes e.alerts).map (fun h => " " ++ hexString h))
        ++ "\n" := by
  rw [printAlertsFired]
  rw [foldl_hash_fragments]
  rw [String.empty_append]
  simp only [String.append_assoc]

end Ambench
